import Mathlib

/-!
Verification development for a two-sided file synchronization engine
(Go backend: `internal/engine` and `internal/storage`).

The embedding is shallow: each Go function that the claims touch is
translated into a pure Lean function over an explicit state.  Go maps
(`map[string]models.FileMetadata`) are modelled as association lists with
unique keys; `time.Time` values are modelled as integers, with Go's
`a.After(b)` becoming `b < a`; calls into the environment (`os.Stat`,
`StorageProvider.GetMetadata`, `copyFile` success) become oracle
parameters; side effects (file copies, deletions, directory creations,
notifier callbacks) are recorded in explicit effect lists returned by each
step.  Go map iteration order is unspecified; loops over maps are
modelled as folds over the entry list, which is faithful for the
properties proved here because every proved per-path statement is
independent of visiting order.
-/

/-- Mirrors `models.FileMetadata`: relative path, content hash (SHA-256 in
the Go code, an opaque string here), and modification time. -/
structure FileMetadata where
  relativePath : String
  hash : String
  modTime : Int
deriving DecidableEq, Repr

/-- A state map (`map[string]models.FileMetadata`), one per side, as an
association list keyed by relative path. -/
abbrev Smap := List (String × FileMetadata)

/-- Go map read `m[k]` (with the `ok` flag given by `Option`). -/
def lookupA {κ α : Type} [DecidableEq κ] : List (κ × α) → κ → Option α
  | [], _ => none
  | (k, v) :: rest, p => if k = p then some v else lookupA rest p

/-- Go map write `m[k] = v`: replace the binding if present, append otherwise. -/
def insertA {κ α : Type} [DecidableEq κ] : List (κ × α) → κ → α → List (κ × α)
  | [], p, v => [(p, v)]
  | (k, w) :: rest, p, v =>
    if k = p then (p, v) :: rest else (k, w) :: insertA rest p v

/-- Go map delete `delete(m, k)`. -/
def eraseA {κ α : Type} [DecidableEq κ] (l : List (κ × α)) (k : κ) : List (κ × α) :=
  l.filter (fun pr => decide (pr.1 ≠ k))

/-- Keys of an association list. -/
def keysA {κ α : Type} (l : List (κ × α)) : List κ := l.map Prod.fst

/-- The association list represents a map: keys are pairwise distinct. -/
abbrev NodupKeys {κ α : Type} (l : List (κ × α)) : Prop := (keysA l).Nodup

@[simp]
theorem lookupA_nil {κ α : Type} [DecidableEq κ] (p : κ) :
    lookupA ([] : List (κ × α)) p = none := rfl

@[simp]
theorem lookupA_cons {κ α : Type} [DecidableEq κ] (k : κ) (v : α) (rest : List (κ × α)) (p : κ) :
    lookupA ((k, v) :: rest) p = if k = p then some v else lookupA rest p := rfl

theorem lookupA_insertA_self {κ α : Type} [DecidableEq κ] (l : List (κ × α)) (k : κ) (v : α) :
    lookupA (insertA l k v) k = some v := by
  induction l with
  | nil => simp [insertA]
  | cons hd tl ih =>
    obtain ⟨k0, v0⟩ := hd
    by_cases hk : k0 = k
    · simp [insertA, hk]
    · simp [insertA, hk, ih]

theorem lookupA_insertA_ne {κ α : Type} [DecidableEq κ] (l : List (κ × α)) (k q : κ) (v : α)
    (h : k ≠ q) : lookupA (insertA l k v) q = lookupA l q := by
  induction l with
  | nil => simp [insertA, h]
  | cons hd tl ih =>
    obtain ⟨k0, v0⟩ := hd
    by_cases hk : k0 = k
    · subst hk
      simp [insertA, h]
    · by_cases hq : k0 = q
      · have hqk : q ≠ k := fun hh => h hh.symm
        simp [insertA, hk, hq, hqk]
      · simp [insertA, hk, hq, ih]

theorem lookupA_eraseA_self {κ α : Type} [DecidableEq κ] (l : List (κ × α)) (k : κ) :
    lookupA (eraseA l k) k = none := by
  induction l with
  | nil => simp [eraseA]
  | cons hd tl ih =>
    obtain ⟨k0, v0⟩ := hd
    by_cases hk : k0 = k
    · simpa [eraseA, hk] using ih
    · simpa [eraseA, hk] using ih

theorem lookupA_eraseA_ne {κ α : Type} [DecidableEq κ] (l : List (κ × α)) (k q : κ)
    (h : q ≠ k) : lookupA (eraseA l k) q = lookupA l q := by
  induction l with
  | nil => simp [eraseA]
  | cons hd tl ih =>
    obtain ⟨k0, v0⟩ := hd
    by_cases hk : k0 = k
    · subst hk
      have hq : k0 ≠ q := fun hqq => h hqq.symm
      simpa [eraseA, hq] using ih
    · by_cases hq : k0 = q
      · simp [eraseA, hk, hq, h]
      · simpa [eraseA, hk, hq] using ih

/-- Direction tag reported by the notifier (`getDirection` in `utils.go`). -/
inductive Direction where
  | localToRemote
  | remoteToLocal
deriving DecidableEq, Repr

/-- `getDirection` from `utils.go`: local events sync `local_to_remote`. -/
def getDirection (isLocal : Bool) : Direction :=
  if isLocal then .localToRemote else .remoteToLocal

/-- One invocation of the registered event callback
(`eventType, filePath, direction, message`). -/
structure Notif where
  eventType : String
  path : String
  direction : Direction
  message : String
deriving DecidableEq, Repr

/-- A `copyFile(src, dst, relPath, modTime)` call, identified by its
direction, path and preserved modification time. -/
structure CopyOp where
  dir : Direction
  path : String
  modTime : Int
deriving DecidableEq, Repr

/-- The part of `SyncEngine` the synchronization step reads and writes:
both state maps, the paused flag, and whether an event callback is set. -/
structure EngineState where
  localMap : Smap
  remoteMap : Smap
  paused : Bool
  hasCallback : Bool
deriving DecidableEq, Repr

/-- Result of one synchronization step: the updated engine state plus the
recorded side effects.  `deletes` and `ensureDirs` name the side whose
provider was called (`true` = local provider); `errorOut` is `true` when
the Go handler returned a non-nil error. -/
structure StepResult where
  st : EngineState
  copies : List CopyOp
  deletes : List (Bool × String)
  ensureDirs : List (Bool × String)
  notifs : List Notif
  errorOut : Bool
deriving DecidableEq, Repr

/-- Source-side state map for an event (`getStateMaps` in `utils.go`). -/
def srcMapOf (st : EngineState) (isLocal : Bool) : Smap :=
  if isLocal then st.localMap else st.remoteMap

/-- Destination-side state map for an event (`getStateMaps` in `utils.go`). -/
def dstMapOf (st : EngineState) (isLocal : Bool) : Smap :=
  if isLocal then st.remoteMap else st.localMap

/-- Write back the (source, destination) maps chosen by `getStateMaps`. -/
def setMaps (st : EngineState) (isLocal : Bool) (srcM dstM : Smap) : EngineState :=
  if isLocal then { st with localMap := srcM, remoteMap := dstM }
  else { st with localMap := dstM, remoteMap := srcM }

/-- `if s.eventCallback != nil { s.eventCallback(...) }`. -/
def emit (st : EngineState) (n : Notif) : List Notif :=
  if st.hasCallback then [n] else []

/-- A step that touches nothing, returning the given error flag. -/
def noopResult (st : EngineState) (err : Bool) : StepResult :=
  ⟨st, [], [], [], [], err⟩

/-- `handleMissingFile` (engine core): the stat raced with a deletion, so
remove the path from both maps, delete it on the destination (NotFound
ignored) and emit a "delete" notification. -/
def handleMissingFile (st : EngineState) (isLocal : Bool) (rel : String) : StepResult :=
  ⟨setMaps st isLocal (eraseA (srcMapOf st isLocal) rel) (eraseA (dstMapOf st isLocal) rel),
    [], [(!isLocal, rel)], [],
    emit st ⟨"delete", rel, getDirection isLocal, "File deleted: " ++ rel⟩, false⟩

/-- `handleFileConflict` from `event_handler.go`: report-only policy, no
copy, no map mutation. -/
def handleFileConflict (st : EngineState) (isLocal : Bool) (rel : String) : StepResult :=
  ⟨st, [], [], [],
    emit st ⟨"conflict", rel, getDirection isLocal,
      "File conflict: " ++ rel ++ " (destination is newer)"⟩, false⟩

/-- `syncFileToDestination` from `event_handler.go`: copy source over
destination preserving the source modTime; on success set both map
entries to the source metadata and emit "sync"; on copy failure return
the error with no map update and no notification. -/
def syncFileToDestination (st : EngineState) (isLocal : Bool) (rel : String)
    (meta : FileMetadata) (copyOk : Bool) : StepResult :=
  if copyOk then
    ⟨setMaps st isLocal (insertA (srcMapOf st isLocal) rel meta)
        (insertA (dstMapOf st isLocal) rel meta),
      [⟨getDirection isLocal, rel, meta.modTime⟩], [], [],
      emit st ⟨"sync", rel, getDirection isLocal, "File synced: " ++ rel⟩, false⟩
  else
    ⟨st, [⟨getDirection isLocal, rel, meta.modTime⟩], [], [], [], true⟩

/-- The metadata-compare body shared by `handleWriteOrChmodEvent` and
`syncFile`, after the source stat succeeded with `srcMeta`. -/
def syncCompare (st : EngineState) (isLocal : Bool) (rel : String)
    (srcMeta : FileMetadata) (copyOk : Bool) : StepResult :=
  match lookupA (dstMapOf st isLocal) rel with
  | some dstMeta =>
    if srcMeta.hash = dstMeta.hash then
      ⟨setMaps st isLocal (insertA (srcMapOf st isLocal) rel srcMeta)
          (insertA (dstMapOf st isLocal) rel dstMeta), [], [], [], [], false⟩
    else if dstMeta.modTime < srcMeta.modTime then
      syncFileToDestination st isLocal rel srcMeta copyOk
    else
      handleFileConflict st isLocal rel
  | none => syncFileToDestination st isLocal rel srcMeta copyOk

/-- Outcome of `srcProvider.GetMetadata(relPath)` (`statOne` contract). -/
inductive StatRes where
  | found (m : FileMetadata)
  | notFound
  | statError
deriving DecidableEq, Repr

/-- `handleWriteOrChmodEvent` from `event_handler.go`. -/
def handleWriteOrChmodEvent (st : EngineState) (isLocal : Bool) (rel : String)
    (srcStat : StatRes) (copyOk : Bool) : StepResult :=
  match srcStat with
  | .notFound => handleMissingFile st isLocal rel
  | .statError => noopResult st true
  | .found srcMeta => syncCompare st isLocal rel srcMeta copyOk

/-- `syncFile` (engine core): identical body to the write/chmod handler. -/
def syncFile (st : EngineState) (isLocal : Bool) (rel : String)
    (srcStat : StatRes) (copyOk : Bool) : StepResult :=
  match srcStat with
  | .notFound => handleMissingFile st isLocal rel
  | .statError => noopResult st true
  | .found srcMeta => syncCompare st isLocal rel srcMeta copyOk

/-- `syncDirectory` (engine core): replicate the directory on the other
side, record a zero-hash entry (`hash = ""`) stamped `time.Now()` in both
maps, emit "sync".  `dirOk` models `EnsureDir` succeeding. -/
def syncDirectory (st : EngineState) (isLocal : Bool) (rel : String)
    (now : Int) (dirOk : Bool) : StepResult :=
  if dirOk then
    let meta : FileMetadata := ⟨rel, "", now⟩
    ⟨setMaps st isLocal (insertA (srcMapOf st isLocal) rel meta)
        (insertA (dstMapOf st isLocal) rel meta),
      [], [], [(!isLocal, rel)],
      emit st ⟨"sync", rel, getDirection isLocal, "Directory synced: " ++ rel⟩, false⟩
  else
    ⟨st, [], [], [(!isLocal, rel)], [], true⟩

/-- `handleCreateEvent` from `event_handler.go`.  `osStat` is the result
of the initial `os.Stat(event.Name)`: `none` means the stat failed (the
handler returns that error at once), `some true` a directory, `some
false` a regular file. -/
def handleCreateEvent (st : EngineState) (isLocal : Bool) (rel : String)
    (osStat : Option Bool) (srcStat : StatRes) (dirOk copyOk : Bool) (now : Int) : StepResult :=
  match osStat with
  | none => noopResult st true
  | some true => syncDirectory st isLocal rel now dirOk
  | some false => syncFile st isLocal rel srcStat copyOk

/-- `handleDeleteOrRenameEvent` from `event_handler.go`: drop the entry
from both maps, delete on the destination (errors only logged), notify
"move" for renames and "delete" otherwise. -/
def handleDeleteOrRenameEvent (st : EngineState) (isLocal : Bool) (rel : String)
    (isRename : Bool) : StepResult :=
  let et := if isRename then "move" else "delete"
  let msg := if isRename then "File moved or renamed: " ++ rel else "File deleted: " ++ rel
  ⟨setMaps st isLocal (eraseA (srcMapOf st isLocal) rel) (eraseA (dstMapOf st isLocal) rel),
    [], [(!isLocal, rel)], [], emit st ⟨et, rel, getDirection isLocal, msg⟩, false⟩

/-- The `fsnotify.Op` bitmask of a raw notification. -/
structure EventOp where
  create : Bool
  write : Bool
  remove : Bool
  rename : Bool
  chmod : Bool
deriving DecidableEq, Repr

/-- `handleEvent` from `event_handler.go`: the paused check, source
resolution (`sideRes` is `determineEventSource`'s result, `none` for an
unresolvable path) and the dispatch switch, in source order. -/
def handleEvent (st : EngineState) (ev : EventOp) (sideRes : Option (Bool × String))
    (osStat : Option Bool) (srcStat : StatRes) (dirOk copyOk : Bool) (now : Int) : StepResult :=
  if st.paused then noopResult st false
  else
    match sideRes with
    | none => noopResult st false
    | some (isLocal, rel) =>
      if ev.create then handleCreateEvent st isLocal rel osStat srcStat dirOk copyOk now
      else if ev.remove || ev.rename then handleDeleteOrRenameEvent st isLocal rel ev.rename
      else if ev.write || ev.chmod then handleWriteOrChmodEvent st isLocal rel srcStat copyOk
      else noopResult st false

/-- Loop 1 of `reconcile` (`state_management.go`): iterate the local map's
entries; copy local-only files to remote; for hash mismatches copy the
side whose modTime is strictly later (`localMeta.ModTime.After(...)`),
ties falling through to the remote branch; update the loser's entry. -/
def recon1 : List (String × FileMetadata) → Smap → Smap → List CopyOp →
    Smap × Smap × List CopyOp
  | [], lm, rm, cs => (lm, rm, cs)
  | (p, lmeta) :: es, lm, rm, cs =>
    match lookupA rm p with
    | none =>
      recon1 es lm (insertA rm p lmeta) (cs ++ [⟨.localToRemote, p, lmeta.modTime⟩])
    | some rmeta =>
      if lmeta.hash = rmeta.hash then
        recon1 es lm rm cs
      else if rmeta.modTime < lmeta.modTime then
        recon1 es lm (insertA rm p lmeta) (cs ++ [⟨.localToRemote, p, lmeta.modTime⟩])
      else
        recon1 es (insertA lm p rmeta) rm (cs ++ [⟨.remoteToLocal, p, rmeta.modTime⟩])

/-- Loop 2 of `reconcile`: copy remote-only files to local. -/
def recon2 : List (String × FileMetadata) → Smap → List CopyOp → Smap × List CopyOp
  | [], lm, cs => (lm, cs)
  | (p, rmeta) :: es, lm, cs =>
    match lookupA lm p with
    | none => recon2 es (insertA lm p rmeta) (cs ++ [⟨.remoteToLocal, p, rmeta.modTime⟩])
    | some _ => recon2 es lm cs

/-- `reconcile` from `state_management.go`, with every `copyFile` call
succeeding (the claims under verification condition on a successful
pass).  Returns the final (local, remote) maps and the copies performed,
in order. -/
def reconcile (lm rm : Smap) : Smap × Smap × List CopyOp :=
  let r1 := recon1 lm lm rm []
  let r2 := recon2 r1.2.1 r1.1 r1.2.2
  (r2.1, r1.2.1, r2.2)

/-- `eventKey` from `concurrency.go`. -/
def eventKey (isLocal : Bool) (rel : String) : String :=
  (if isLocal then "local" else "remote") ++ ":" ++ rel

/-- The debounce bookkeeping map `pendingEvents` (key → lastAdmittedAt). -/
abbrev DebMap := List (String × Int)

/-- `shouldEnqueue` from `concurrency.go`: drop empty-name events, drop
everything once the stop channel is closed, otherwise admit unless the
key was admitted less than `interval` ago; admission refreshes the
recorded timestamp, a drop leaves it untouched. -/
def shouldEnqueue (pending : DebMap) (interval : Int) (stopped nameEmpty isLocal : Bool)
    (rel : String) (now : Int) : Bool × DebMap :=
  if nameEmpty then (false, pending)
  else if stopped then (false, pending)
  else
    let key := eventKey isLocal rel
    match lookupA pending key with
    | some last =>
      if now - last < interval then (false, pending) else (true, insertA pending key now)
    | none => (true, insertA pending key now)

/-- A burst of raw notifications for one `(side, relPath)` key arriving at
the given times, run through `shouldEnqueue` in sequence. -/
def admitSeq (pending : DebMap) (interval : Int) (isLocal : Bool) (rel : String) :
    List Int → List Bool × DebMap
  | [] => ([], pending)
  | t :: ts =>
    let r := shouldEnqueue pending interval false false isLocal rel t
    let rs := admitSeq r.2 interval isLocal rel ts
    (r.1 :: rs.1, rs.2)

/-- One row of the consolidated listing (`FileInfo`).  The Go code
formats `ModTime` as a string for display; the model keeps the raw
timestamp. -/
structure FileInfo where
  relativePath : String
  hash : String
  modTime : Int
  location : String
deriving DecidableEq, Repr

/-- First loop of `GetFileList` (`engine.go`): seed `fileSet` with every
local entry at location "local". -/
def fsLoop1 : List (String × FileMetadata) → List (String × FileInfo) →
    List (String × FileInfo)
  | [], acc => acc
  | (p, m) :: es, acc => fsLoop1 es (insertA acc p ⟨p, m.hash, m.modTime, "local"⟩)

/-- Second loop of `GetFileList`: a remote entry matching an existing row
with an equal hash flips that row to "both"; a differing hash leaves the
row alone (the remote entry is dropped); an unseen path is added at
location "remote". -/
def fsLoop2 : List (String × FileMetadata) → List (String × FileInfo) →
    List (String × FileInfo)
  | [], acc => acc
  | (p, m) :: es, acc =>
    match lookupA acc p with
    | some fi =>
      if fi.hash = m.hash then fsLoop2 es (insertA acc p { fi with location := "both" })
      else fsLoop2 es acc
    | none => fsLoop2 es (insertA acc p ⟨p, m.hash, m.modTime, "remote"⟩)

/-- `GetFileList` from `engine.go`: run both loops, then flatten the map
to a list of rows. -/
def GetFileList (lm rm : Smap) : List FileInfo :=
  (fsLoop2 rm (fsLoop1 lm [])).map Prod.snd

theorem insertA_lookup_same {κ α : Type} [DecidableEq κ] (l : List (κ × α)) (k : κ) (v : α)
    (h : lookupA l k = some v) : insertA l k v = l := by
  induction l with
  | nil => simp at h
  | cons hd tl ih =>
    obtain ⟨k0, v0⟩ := hd
    by_cases hk : k0 = k
    · subst hk
      have h2 : v0 = v := by simpa using h
      subst h2
      simp [insertA]
    · simp only [lookupA_cons, if_neg hk] at h
      simp [insertA, hk, ih h]

/-- The event reaches the metadata-compare procedure: either a create
notification whose initial stat reports a regular file, or a plain
write/chmod notification. -/
def reachesCompare (ev : EventOp) (osStat : Option Bool) : Prop :=
  (ev.create = true ∧ osStat = some false) ∨
    (ev.create = false ∧ ev.remove = false ∧ ev.rename = false ∧
      (ev.write = true ∨ ev.chmod = true))

theorem handleEvent_compare (st : EngineState) (ev : EventOp) (isLocal : Bool)
    (rel : String) (osStat : Option Bool) (srcStat : StatRes) (dirOk copyOk : Bool) (now : Int)
    (hpause : st.paused = false) (hreach : reachesCompare ev osStat) :
    handleEvent st ev (some (isLocal, rel)) osStat srcStat dirOk copyOk now =
      handleWriteOrChmodEvent st isLocal rel srcStat copyOk := by
  rcases hreach with ⟨hc, ho⟩ | ⟨hc, hrm, hrn, hw⟩
  · simp [handleEvent, hpause, hc, ho, handleCreateEvent, syncFile, handleWriteOrChmodEvent]
  · rcases hw with hw | hw
    · simp [handleEvent, hpause, hc, hrm, hrn, hw]
    · simp [handleEvent, hpause, hc, hrm, hrn, hw]

/-- C1: a create/write/chmod event whose destination entry exists with a
differing hash and a modTime greater than or equal to the freshly fetched
source modTime copies nothing in either direction, leaves the whole
engine state (in particular both map entries for the path) unchanged, and
emits exactly one "conflict" notification identifying the path. -/
theorem conflict_step_frame (st : EngineState) (ev : EventOp) (isLocal : Bool)
    (rel : String) (osStat : Option Bool) (srcMeta dstMeta : FileMetadata)
    (dirOk copyOk : Bool) (now : Int)
    (hpause : st.paused = false) (hreach : reachesCompare ev osStat)
    (hdst : lookupA (dstMapOf st isLocal) rel = some dstMeta)
    (hhash : srcMeta.hash ≠ dstMeta.hash)
    (hmt : srcMeta.modTime ≤ dstMeta.modTime)
    (hcb : st.hasCallback = true) :
    handleEvent st ev (some (isLocal, rel)) osStat (.found srcMeta) dirOk copyOk now =
      ⟨st, [], [], [],
        [⟨"conflict", rel, getDirection isLocal,
          "File conflict: " ++ rel ++ " (destination is newer)"⟩], false⟩ := by
  rw [handleEvent_compare st ev isLocal rel osStat (.found srcMeta) dirOk copyOk now hpause hreach]
  simp [handleWriteOrChmodEvent, syncCompare, hdst, hhash, not_lt.mpr hmt,
    handleFileConflict, emit, hcb]

theorem conflict_step_frame_witness :
    handleEvent ⟨[("a", ⟨"a", "h1", 1⟩)], [("a", ⟨"a", "h2", 5⟩)], false, true⟩
        ⟨false, true, false, false, false⟩ (some (true, "a")) none
        (.found ⟨"a", "h1", 3⟩) true true 0 =
      ⟨⟨[("a", ⟨"a", "h1", 1⟩)], [("a", ⟨"a", "h2", 5⟩)], false, true⟩, [], [], [],
        [⟨"conflict", "a", getDirection true,
          "File conflict: " ++ "a" ++ " (destination is newer)"⟩], false⟩ :=
  conflict_step_frame ⟨[("a", ⟨"a", "h1", 1⟩)], [("a", ⟨"a", "h2", 5⟩)], false, true⟩
    ⟨false, true, false, false, false⟩ true "a" none ⟨"a", "h1", 3⟩ ⟨"a", "h2", 5⟩ true true 0
    rfl (Or.inr (by decide)) rfl (by decide) (by decide) rfl

/-- C8: a synchronization step that observes the paused flag set returns
at once: the engine state is unchanged and no copy, no deletion, no
directory creation and no notification is recorded (in particular nothing
is queued anywhere for replay). -/
theorem paused_step_noop (st : EngineState) (ev : EventOp) (sideRes : Option (Bool × String))
    (osStat : Option Bool) (srcStat : StatRes) (dirOk copyOk : Bool) (now : Int)
    (hpause : st.paused = true) :
    handleEvent st ev sideRes osStat srcStat dirOk copyOk now = ⟨st, [], [], [], [], false⟩ := by
  simp [handleEvent, hpause, noopResult]

theorem paused_step_noop_witness :
    handleEvent ⟨[("a", ⟨"a", "h1", 1⟩)], [], true, true⟩ ⟨true, false, false, false, false⟩
        (some (true, "a")) (some false) (.found ⟨"a", "h9", 9⟩) true true 7 =
      ⟨⟨[("a", ⟨"a", "h1", 1⟩)], [], true, true⟩, [], [], [], [], false⟩ :=
  paused_step_noop _ _ _ _ _ _ _ _ rfl

/-- C5 counterexample: with destination hash equal to the freshly fetched
source hash but a differing stored destination modTime, the step leaves
the destination map entry at its old value instead of refreshing it to
the freshly fetched metadata, so the claim as stated fails. -/
theorem equal_hash_refresh_counterexample :
    lookupA (handleEvent ⟨[("a", ⟨"a", "h0", 1⟩)], [("a", ⟨"a", "h", 5⟩)], false, true⟩
        ⟨false, true, false, false, false⟩ (some (true, "a")) none
        (.found ⟨"a", "h", 9⟩) true true 0).st.remoteMap "a" = some ⟨"a", "h", 5⟩ ∧
      (⟨"a", "h", 5⟩ : FileMetadata) ≠ ⟨"a", "h", 9⟩ := by
  constructor
  · rfl
  · decide

/-- C5 as amended: when the destination entry's hash equals the freshly
fetched source hash, the step performs no copy, no deletion and no
notification; the source map entry is set to the freshly fetched
metadata, while the destination map is written back with its existing
entry and is therefore unchanged. -/
theorem equal_hash_step (st : EngineState) (ev : EventOp) (isLocal : Bool)
    (rel : String) (osStat : Option Bool) (srcMeta dstMeta : FileMetadata)
    (dirOk copyOk : Bool) (now : Int)
    (hpause : st.paused = false) (hreach : reachesCompare ev osStat)
    (hdst : lookupA (dstMapOf st isLocal) rel = some dstMeta)
    (hhash : srcMeta.hash = dstMeta.hash) :
    handleEvent st ev (some (isLocal, rel)) osStat (.found srcMeta) dirOk copyOk now =
      ⟨setMaps st isLocal (insertA (srcMapOf st isLocal) rel srcMeta) (dstMapOf st isLocal),
        [], [], [], [], false⟩ := by
  rw [handleEvent_compare st ev isLocal rel osStat (.found srcMeta) dirOk copyOk now hpause hreach]
  simp [handleWriteOrChmodEvent, syncCompare, hdst, hhash, insertA_lookup_same _ _ _ hdst]

theorem equal_hash_step_witness :
    handleEvent ⟨[("a", ⟨"a", "h0", 1⟩)], [("a", ⟨"a", "h", 5⟩)], false, true⟩
        ⟨false, true, false, false, false⟩ (some (true, "a")) none
        (.found ⟨"a", "h", 9⟩) true true 0 =
      ⟨setMaps ⟨[("a", ⟨"a", "h0", 1⟩)], [("a", ⟨"a", "h", 5⟩)], false, true⟩ true
          (insertA [("a", ⟨"a", "h0", 1⟩)] "a" ⟨"a", "h", 9⟩) [("a", ⟨"a", "h", 5⟩)],
        [], [], [], [], false⟩ :=
  equal_hash_step ⟨[("a", ⟨"a", "h0", 1⟩)], [("a", ⟨"a", "h", 5⟩)], false, true⟩
    ⟨false, true, false, false, false⟩ true "a" none ⟨"a", "h", 9⟩ ⟨"a", "h", 5⟩ true true 0
    rfl (Or.inr (by decide)) rfl rfl

/-- C6 counterexample: for a create event whose file vanished before
processing, the initial `os.Stat` in `handleCreateEvent` fails and the
handler returns that error at once — the path stays in both maps, no
destination delete is recorded and no "delete" notification is emitted,
contradicting the claim that every non-remove/rename event with a
NotFound source stat behaves exactly as a deletion. -/
theorem missing_create_counterexample :
    handleEvent ⟨[("a", ⟨"a", "h", 1⟩)], [("a", ⟨"a", "h", 1⟩)], false, true⟩
        ⟨true, false, false, false, false⟩ (some (true, "a")) none .notFound true true 0 =
      ⟨⟨[("a", ⟨"a", "h", 1⟩)], [("a", ⟨"a", "h", 1⟩)], false, true⟩, [], [], [], [], true⟩ ∧
      lookupA ([("a", (⟨"a", "h", 1⟩ : FileMetadata))]) "a" = some ⟨"a", "h", 1⟩ := by
  constructor
  · rfl
  · rfl

/-- C6 as amended: a NotFound source stat is treated exactly as a
deletion (drop the path from both maps, delete on the destination, emit
one "delete" notification) for write/chmod events, and for create events
only once the initial raw-path stat has succeeded and reported a regular
file; a create event whose initial stat fails returns an error and
performs no action at all. -/
theorem missing_file_step (st : EngineState) (isLocal : Bool) (rel : String)
    (dirOk copyOk : Bool) (now : Int)
    (hpause : st.paused = false) :
    (∀ ev : EventOp, ev.create = false → ev.remove = false → ev.rename = false →
      (ev.write = true ∨ ev.chmod = true) →
      handleEvent st ev (some (isLocal, rel)) none .notFound dirOk copyOk now =
        ⟨setMaps st isLocal (eraseA (srcMapOf st isLocal) rel) (eraseA (dstMapOf st isLocal) rel),
          [], [(!isLocal, rel)], [],
          emit st ⟨"delete", rel, getDirection isLocal, "File deleted: " ++ rel⟩, false⟩) ∧
    (∀ ev : EventOp, ev.create = true →
      handleEvent st ev (some (isLocal, rel)) (some false) .notFound dirOk copyOk now =
        ⟨setMaps st isLocal (eraseA (srcMapOf st isLocal) rel) (eraseA (dstMapOf st isLocal) rel),
          [], [(!isLocal, rel)], [],
          emit st ⟨"delete", rel, getDirection isLocal, "File deleted: " ++ rel⟩, false⟩) ∧
    (∀ ev : EventOp, ev.create = true →
      handleEvent st ev (some (isLocal, rel)) none .notFound dirOk copyOk now =
        ⟨st, [], [], [], [], true⟩) := by
  refine ⟨fun ev hc hrm hrn hw => ?_, fun ev hc => ?_, fun ev hc => ?_⟩
  · rw [handleEvent_compare st ev isLocal rel none .notFound dirOk copyOk now hpause
      (Or.inr ⟨hc, hrm, hrn, hw⟩)]
    simp [handleWriteOrChmodEvent, handleMissingFile]
  · rw [handleEvent_compare st ev isLocal rel (some false) .notFound dirOk copyOk now hpause
      (Or.inl ⟨hc, rfl⟩)]
    simp [handleWriteOrChmodEvent, handleMissingFile]
  · simp [handleEvent, hpause, hc, handleCreateEvent, noopResult]

theorem missing_file_step_witness :
    handleEvent ⟨[("a", ⟨"a", "h", 1⟩)], [("a", ⟨"a", "h", 1⟩)], false, true⟩
        ⟨false, true, false, false, false⟩ (some (true, "a")) none .notFound true true 0 =
      ⟨setMaps ⟨[("a", ⟨"a", "h", 1⟩)], [("a", ⟨"a", "h", 1⟩)], false, true⟩ true
          (eraseA [("a", ⟨"a", "h", 1⟩)] "a") (eraseA [("a", ⟨"a", "h", 1⟩)] "a"),
        [], [(!true, "a")], [],
        emit ⟨[("a", ⟨"a", "h", 1⟩)], [("a", ⟨"a", "h", 1⟩)], false, true⟩
          ⟨"delete", "a", getDirection true, "File deleted: " ++ "a"⟩, false⟩ :=
  (missing_file_step ⟨[("a", ⟨"a", "h", 1⟩)], [("a", ⟨"a", "h", 1⟩)], false, true⟩
      true "a" true true 0 rfl).1 ⟨false, true, false, false, false⟩ rfl rfl rfl (Or.inl rfl)

theorem admitSeq_all_dropped (interval : Int) (isLocal : Bool) (rel : String)
    (t0 : Int) (ts : List Int) :
    ∀ pending : DebMap, lookupA pending (eventKey isLocal rel) = some t0 →
    (∀ t ∈ ts, t0 ≤ t ∧ t - t0 < interval) →
    admitSeq pending interval isLocal rel ts = (List.replicate ts.length false, pending) := by
  induction ts with
  | nil => intro pending _ _; rfl
  | cons t ts ih =>
    intro pending hkey hwin
    have hwt := hwin t (List.mem_cons_self t ts)
    have hdrop : shouldEnqueue pending interval false false isLocal rel t = (false, pending) := by
      simp [shouldEnqueue, hkey, hwt.2]
    simp [admitSeq, hdrop, ih pending hkey (fun u hu => hwin u (List.mem_cons_of_mem t hu)),
      List.replicate_succ]

/-- C4: K ≥ 1 raw notifications for one `(side, relPath)` key, all
arriving within less than the debounce interval after the first
admission, yield exactly one admitted job: `shouldEnqueue` returns true
for the first and false for every later one (given that the key either
has no recorded admission or only a stale one at least one interval
old). -/
theorem debounce_collapses_burst (pending : DebMap) (interval : Int) (isLocal : Bool)
    (rel : String) (t0 : Int) (ts : List Int)
    (hfresh : ∀ last, lookupA pending (eventKey isLocal rel) = some last →
      interval ≤ t0 - last)
    (hwin : ∀ t ∈ ts, t0 ≤ t ∧ t - t0 < interval) :
    (admitSeq pending interval isLocal rel (t0 :: ts)).1 =
      true :: List.replicate ts.length false := by
  have hadmit : shouldEnqueue pending interval false false isLocal rel t0 =
      (true, insertA pending (eventKey isLocal rel) t0) := by
    cases hl : lookupA pending (eventKey isLocal rel) with
    | none => simp [shouldEnqueue, hl]
    | some last =>
      have := hfresh last hl
      simp [shouldEnqueue, hl, not_lt.mpr this]
  have hrest := admitSeq_all_dropped interval isLocal rel t0 ts
    (insertA pending (eventKey isLocal rel) t0)
    (lookupA_insertA_self pending (eventKey isLocal rel) t0) hwin
  simp [admitSeq, hadmit, hrest]

theorem debounce_collapses_burst_witness :
    (admitSeq [] 500 true "notes.txt" (0 :: [100, 250, 499])).1 =
      true :: List.replicate 3 false :=
  debounce_collapses_burst [] 500 true "notes.txt" 0 [100, 250, 499]
    (fun _ h => nomatch h) (by decide)

theorem lookupA_eq_none_iff {κ α : Type} [DecidableEq κ] (l : List (κ × α)) (p : κ) :
    lookupA l p = none ↔ p ∉ keysA l := by
  induction l with
  | nil => simp [keysA]
  | cons hd tl ih =>
    obtain ⟨k0, v0⟩ := hd
    by_cases hk : k0 = p
    · subst hk
      simp [keysA]
    · rw [lookupA_cons, if_neg hk, ih]
      simp only [keysA, List.map_cons, List.mem_cons]
      constructor
      · intro h hmem
        rcases hmem with h1 | h1
        · exact hk h1.symm
        · exact h h1
      · intro h hmem
        exact h (Or.inr hmem)

theorem insertA_cons_self {κ α : Type} [DecidableEq κ] (tl : List (κ × α)) (k : κ) (w v : α) :
    insertA ((k, w) :: tl) k v = (k, v) :: tl := by
  simp [insertA]

theorem insertA_cons_ne {κ α : Type} [DecidableEq κ] (tl : List (κ × α)) (k0 k : κ) (w v : α)
    (h : k0 ≠ k) : insertA ((k0, w) :: tl) k v = (k0, w) :: insertA tl k v := by
  simp [insertA, h]

theorem mem_keysA_insertA {κ α : Type} [DecidableEq κ] (l : List (κ × α)) (k q : κ) (v : α) :
    q ∈ keysA (insertA l k v) ↔ q ∈ keysA l ∨ q = k := by
  induction l with
  | nil => simp [insertA, keysA]
  | cons hd tl ih =>
    obtain ⟨k0, v0⟩ := hd
    by_cases hk : k0 = k
    · subst hk
      rw [insertA_cons_self]
      simp only [keysA, List.map_cons, List.mem_cons]
      tauto
    · rw [insertA_cons_ne tl k0 k v0 v hk]
      simp only [keysA, List.map_cons, List.mem_cons]
      simp only [keysA] at ih
      rw [ih]
      tauto

theorem nodupKeys_insertA {κ α : Type} [DecidableEq κ] (l : List (κ × α)) (k : κ) (v : α)
    (h : NodupKeys l) : NodupKeys (insertA l k v) := by
  induction l with
  | nil => simp [insertA, NodupKeys, keysA]
  | cons hd tl ih =>
    obtain ⟨k0, v0⟩ := hd
    simp only [NodupKeys, keysA, List.map_cons, List.nodup_cons] at h
    by_cases hk : k0 = k
    · subst hk
      simpa [insertA, NodupKeys, keysA] using h
    · have htl := ih h.2
      simp only [insertA, if_neg hk, NodupKeys, keysA, List.map_cons, List.nodup_cons]
      refine ⟨fun hmem => ?_, htl⟩
      rcases (mem_keysA_insertA tl k k0 v).1 hmem with hin | heq
      · exact h.1 hin
      · exact hk heq

theorem lookupA_mem {κ α : Type} [DecidableEq κ] (l : List (κ × α)) (p : κ) (v : α)
    (h : lookupA l p = some v) : (p, v) ∈ l := by
  induction l with
  | nil => simp at h
  | cons hd tl ih =>
    obtain ⟨k0, v0⟩ := hd
    by_cases hk : k0 = p
    · subst hk
      have h2 : v0 = v := by simpa using h
      subst h2
      exact List.mem_cons_self _ _
    · simp only [lookupA_cons, if_neg hk] at h
      exact List.mem_cons_of_mem _ (ih h)

theorem mem_insertA {κ α : Type} [DecidableEq κ] (l : List (κ × α)) (k : κ) (v : α)
    (pr : κ × α) (h : pr ∈ insertA l k v) : pr ∈ l ∨ pr = (k, v) := by
  induction l with
  | nil => simpa [insertA] using h
  | cons hd tl ih =>
    obtain ⟨k0, v0⟩ := hd
    by_cases hk : k0 = k
    · subst hk
      have h2 : pr ∈ (k0, v) :: tl := by simpa [insertA] using h
      rcases List.mem_cons.1 h2 with h3 | h3
      · exact Or.inr h3
      · exact Or.inl (List.mem_cons_of_mem _ h3)
    · have h2 : pr = (k0, v0) ∨ pr ∈ insertA tl k v := by
        simpa [insertA, hk] using h
      rcases h2 with h3 | h3
      · exact Or.inl (h3 ▸ List.mem_cons_self _ _)
      · rcases ih h3 with h4 | h4
        · exact Or.inl (List.mem_cons_of_mem _ h4)
        · exact Or.inr h4

theorem fsLoop1_frame (es : List (String × FileMetadata)) (p : String) :
    ∀ acc, p ∉ keysA es → lookupA (fsLoop1 es acc) p = lookupA acc p := by
  induction es with
  | nil => intro acc _; rfl
  | cons hd tl ih =>
    obtain ⟨q, m⟩ := hd
    intro acc hp
    simp only [keysA, List.map_cons, List.mem_cons] at hp
    push_neg at hp
    have hq : q ≠ p := fun h => hp.1 h.symm
    rw [fsLoop1, ih _ (by simpa [keysA] using hp.2), lookupA_insertA_ne _ _ _ _ hq]

theorem fsLoop1_lookup (es : List (String × FileMetadata)) (p : String) (m : FileMetadata) :
    ∀ acc, NodupKeys es → lookupA es p = some m →
      lookupA (fsLoop1 es acc) p = some ⟨p, m.hash, m.modTime, "local"⟩ := by
  induction es with
  | nil => intro acc _ h; simp at h
  | cons hd tl ih =>
    obtain ⟨q, w⟩ := hd
    intro acc hnd hl
    simp only [NodupKeys, keysA, List.map_cons, List.nodup_cons] at hnd
    by_cases hq : q = p
    · subst hq
      have h2 : w = m := by simpa using hl
      subst h2
      rw [fsLoop1, fsLoop1_frame tl q _ hnd.1, lookupA_insertA_self]
    · simp only [lookupA_cons, if_neg hq] at hl
      rw [fsLoop1]
      exact ih _ hnd.2 hl

theorem fsLoop1_nodup (es : List (String × FileMetadata)) :
    ∀ acc, NodupKeys acc → NodupKeys (fsLoop1 es acc) := by
  induction es with
  | nil => intro acc h; exact h
  | cons hd tl ih =>
    obtain ⟨q, m⟩ := hd
    intro acc h
    exact ih _ (nodupKeys_insertA _ _ _ h)

theorem fsLoop1_paths (es : List (String × FileMetadata)) :
    ∀ acc, (∀ pr ∈ acc, (pr.2 : FileInfo).relativePath = pr.1) →
      ∀ pr ∈ fsLoop1 es acc, (pr.2 : FileInfo).relativePath = pr.1 := by
  induction es with
  | nil => intro acc h; exact h
  | cons hd tl ih =>
    obtain ⟨q, m⟩ := hd
    intro acc h
    refine ih _ (fun pr hpr => ?_)
    rcases mem_insertA _ _ _ _ hpr with h2 | h2
    · exact h pr h2
    · subst h2; rfl

theorem fsLoop2_cons_none (es : List (String × FileMetadata)) (acc : List (String × FileInfo))
    (q : String) (m : FileMetadata) (h : lookupA acc q = none) :
    fsLoop2 ((q, m) :: es) acc = fsLoop2 es (insertA acc q ⟨q, m.hash, m.modTime, "remote"⟩) := by
  simp [fsLoop2, h]

theorem fsLoop2_cons_some_eq (es : List (String × FileMetadata)) (acc : List (String × FileInfo))
    (q : String) (m : FileMetadata) (fi : FileInfo) (h : lookupA acc q = some fi)
    (hh : fi.hash = m.hash) :
    fsLoop2 ((q, m) :: es) acc = fsLoop2 es (insertA acc q { fi with location := "both" }) := by
  simp [fsLoop2, h, hh]

theorem fsLoop2_cons_some_ne (es : List (String × FileMetadata)) (acc : List (String × FileInfo))
    (q : String) (m : FileMetadata) (fi : FileInfo) (h : lookupA acc q = some fi)
    (hh : ¬fi.hash = m.hash) :
    fsLoop2 ((q, m) :: es) acc = fsLoop2 es acc := by
  simp [fsLoop2, h, hh]

theorem fsLoop2_frame (es : List (String × FileMetadata)) (p : String) :
    ∀ acc, p ∉ keysA es → lookupA (fsLoop2 es acc) p = lookupA acc p := by
  induction es with
  | nil => intro acc _; rfl
  | cons hd tl ih =>
    obtain ⟨q, m⟩ := hd
    intro acc hp
    simp only [keysA, List.map_cons, List.mem_cons] at hp
    push_neg at hp
    have hq : q ≠ p := fun h => hp.1 h.symm
    have htl : p ∉ keysA tl := by simpa [keysA] using hp.2
    cases hacc : lookupA acc q with
    | none =>
      rw [fsLoop2_cons_none tl acc q m hacc, ih _ htl, lookupA_insertA_ne _ _ _ _ hq]
    | some fi =>
      by_cases hh : fi.hash = m.hash
      · rw [fsLoop2_cons_some_eq tl acc q m fi hacc hh, ih _ htl,
          lookupA_insertA_ne _ _ _ _ hq]
      · rw [fsLoop2_cons_some_ne tl acc q m fi hacc hh, ih _ htl]

theorem fsLoop2_lookup (es : List (String × FileMetadata)) (p : String) (b : FileMetadata)
    (fi : FileInfo) :
    ∀ acc, NodupKeys es → lookupA es p = some b → lookupA acc p = some fi →
      lookupA (fsLoop2 es acc) p =
        some (if fi.hash = b.hash then { fi with location := "both" } else fi) := by
  induction es with
  | nil => intro acc _ h _; simp at h
  | cons hd tl ih =>
    obtain ⟨q, w⟩ := hd
    intro acc hnd hl hacc
    simp only [NodupKeys, keysA, List.map_cons, List.nodup_cons] at hnd
    by_cases hq : q = p
    · subst hq
      have h2 : w = b := by simpa using hl
      subst h2
      by_cases hh : fi.hash = w.hash
      · rw [fsLoop2_cons_some_eq tl acc q w fi hacc hh, if_pos hh,
          fsLoop2_frame tl q _ hnd.1, lookupA_insertA_self]
      · rw [fsLoop2_cons_some_ne tl acc q w fi hacc hh, if_neg hh,
          fsLoop2_frame tl q _ hnd.1, hacc]
    · simp only [lookupA_cons, if_neg hq] at hl
      have hq2 : q ≠ p := hq
      cases haccq : lookupA acc q with
      | none =>
        rw [fsLoop2_cons_none tl acc q w haccq]
        exact ih _ hnd.2 hl (by rw [lookupA_insertA_ne _ _ _ _ hq2, hacc])
      | some fj =>
        by_cases hh : fj.hash = w.hash
        · rw [fsLoop2_cons_some_eq tl acc q w fj haccq hh]
          exact ih _ hnd.2 hl (by rw [lookupA_insertA_ne _ _ _ _ hq2, hacc])
        · rw [fsLoop2_cons_some_ne tl acc q w fj haccq hh]
          exact ih _ hnd.2 hl hacc

theorem fsLoop2_nodup (es : List (String × FileMetadata)) :
    ∀ acc, NodupKeys acc → NodupKeys (fsLoop2 es acc) := by
  induction es with
  | nil => intro acc h; exact h
  | cons hd tl ih =>
    obtain ⟨q, m⟩ := hd
    intro acc h
    rw [fsLoop2]
    cases lookupA acc q with
    | none => exact ih _ (nodupKeys_insertA _ _ _ h)
    | some fi =>
      by_cases hh : fi.hash = m.hash
      · simp only [hh, if_pos rfl]
        exact ih _ (nodupKeys_insertA _ _ _ h)
      · simp only [if_neg hh]
        exact ih _ h

theorem fsLoop2_paths (es : List (String × FileMetadata)) :
    ∀ acc, (∀ pr ∈ acc, (pr.2 : FileInfo).relativePath = pr.1) →
      ∀ pr ∈ fsLoop2 es acc, (pr.2 : FileInfo).relativePath = pr.1 := by
  induction es with
  | nil => intro acc h; exact h
  | cons hd tl ih =>
    obtain ⟨q, m⟩ := hd
    intro acc h
    rw [fsLoop2]
    cases hacc : lookupA acc q with
    | none =>
      refine ih _ (fun pr hpr => ?_)
      rcases mem_insertA _ _ _ _ hpr with h2 | h2
      · exact h pr h2
      · subst h2; rfl
    | some fi =>
      by_cases hh : fi.hash = m.hash
      · simp only [hh, if_pos rfl]
        refine ih _ (fun pr hpr => ?_)
        rcases mem_insertA _ _ _ _ hpr with h2 | h2
        · exact h pr h2
        · have hfi : fi.relativePath = q := h (q, fi) (lookupA_mem _ _ _ hacc)
          subst h2
          simpa using hfi
      · simp only [if_neg hh]
        exact ih _ h

theorem values_filter_eq_lookup (acc : List (String × FileInfo)) (p : String)
    (hnd : NodupKeys acc) (hpaths : ∀ pr ∈ acc, (pr.2 : FileInfo).relativePath = pr.1) :
    (acc.map Prod.snd).filter (fun fi => decide (fi.relativePath = p)) =
      Option.toList (lookupA acc p) := by
  induction acc with
  | nil => rfl
  | cons hd tl ih =>
    obtain ⟨q, fi⟩ := hd
    have hfi : fi.relativePath = q := hpaths (q, fi) (List.mem_cons_self _ _)
    simp only [NodupKeys, keysA, List.map_cons, List.nodup_cons] at hnd
    have htl := ih hnd.2 (fun pr hpr => hpaths pr (List.mem_cons_of_mem _ hpr))
    by_cases hq : q = p
    · subst hq
      have hnone : lookupA tl q = none := (lookupA_eq_none_iff tl q).2 hnd.1
      simp only [List.map_cons, List.filter_cons, hfi, decide_True, lookupA_cons, if_pos rfl]
      rw [htl, hnone]
      rfl
    · have : (fi.relativePath = p) = False := by
        simp [hfi, hq]
      simp only [List.map_cons, List.filter_cons, this, decide_False, lookupA_cons, if_neg hq]
      exact htl

/-- C10: a path present in both state maps appears exactly once in the
consolidated listing; it is reported at location "both" (with the local
entry's hash and modTime) exactly when the two hashes are equal, and at
location "local" with the local entry's hash and modTime when they
differ — the remote entry is then omitted from the listing. -/
theorem file_list_overlap (lm rm : Smap) (p : String) (a b : FileMetadata)
    (hl : NodupKeys lm) (hr : NodupKeys rm)
    (ha : lookupA lm p = some a) (hb : lookupA rm p = some b) :
    (GetFileList lm rm).filter (fun fi => decide (fi.relativePath = p)) =
      [⟨p, a.hash, a.modTime, if a.hash = b.hash then "both" else "local"⟩] := by
  have hnil : NodupKeys ([] : List (String × FileInfo)) := by simp [NodupKeys, keysA]
  have h1 := fsLoop1_lookup lm p a [] hl ha
  have h1nd := fsLoop1_nodup lm [] hnil
  have h1paths := fsLoop1_paths lm [] (by intro pr hpr; simp at hpr)
  have h2 := fsLoop2_lookup rm p b ⟨p, a.hash, a.modTime, "local"⟩ (fsLoop1 lm []) hr hb h1
  have h2nd := fsLoop2_nodup rm _ h1nd
  have h2paths := fsLoop2_paths rm _ h1paths
  unfold GetFileList
  rw [values_filter_eq_lookup _ p h2nd h2paths, h2]
  by_cases hh : a.hash = b.hash
  · simp [hh]
  · simp [hh]

theorem file_list_overlap_witness :
    (GetFileList [("a", ⟨"a", "h", 1⟩), ("b", ⟨"b", "x", 2⟩)] [("a", ⟨"a", "h", 3⟩)]).filter
        (fun fi => decide (fi.relativePath = "a")) =
      [⟨"a", "h", 1, if "h" = "h" then "both" else "local"⟩] :=
  file_list_overlap [("a", ⟨"a", "h", 1⟩), ("b", ⟨"b", "x", 2⟩)] [("a", ⟨"a", "h", 3⟩)]
    "a" ⟨"a", "h", 1⟩ ⟨"a", "h", 3⟩ (by decide) (by decide) rfl rfl

theorem lookupA_of_mem_nodup {κ α : Type} [DecidableEq κ] (l : List (κ × α)) (p : κ) (v : α)
    (hnd : NodupKeys l) (h : (p, v) ∈ l) : lookupA l p = some v := by
  induction l with
  | nil => simp at h
  | cons hd tl ih =>
    obtain ⟨k0, v0⟩ := hd
    simp only [NodupKeys, keysA, List.map_cons, List.nodup_cons] at hnd
    rcases List.mem_cons.1 h with h1 | h1
    · obtain ⟨hk, hv⟩ := Prod.mk.injEq .. ▸ h1
      subst hk
      simp [hv]
    · have hk : k0 ≠ p := by
        intro hE
        subst hE
        exact hnd.1 (List.mem_map_of_mem Prod.fst h1)
      rw [lookupA_cons, if_neg hk]
      exact ih hnd.2 h1

theorem recon1_cons_none (es : List (String × FileMetadata)) (lm rm : Smap) (cs : List CopyOp)
    (q : String) (w : FileMetadata) (h : lookupA rm q = none) :
    recon1 ((q, w) :: es) lm rm cs =
      recon1 es lm (insertA rm q w) (cs ++ [⟨.localToRemote, q, w.modTime⟩]) := by
  simp [recon1, h]

theorem recon1_cons_eq (es : List (String × FileMetadata)) (lm rm : Smap) (cs : List CopyOp)
    (q : String) (w r : FileMetadata) (h : lookupA rm q = some r) (hh : w.hash = r.hash) :
    recon1 ((q, w) :: es) lm rm cs = recon1 es lm rm cs := by
  simp [recon1, h, hh]

theorem recon1_cons_newerL (es : List (String × FileMetadata)) (lm rm : Smap) (cs : List CopyOp)
    (q : String) (w r : FileMetadata) (h : lookupA rm q = some r) (hh : ¬w.hash = r.hash)
    (hmt : r.modTime < w.modTime) :
    recon1 ((q, w) :: es) lm rm cs =
      recon1 es lm (insertA rm q w) (cs ++ [⟨.localToRemote, q, w.modTime⟩]) := by
  simp [recon1, h, hh, hmt]

theorem recon1_cons_newerR (es : List (String × FileMetadata)) (lm rm : Smap) (cs : List CopyOp)
    (q : String) (w r : FileMetadata) (h : lookupA rm q = some r) (hh : ¬w.hash = r.hash)
    (hmt : ¬r.modTime < w.modTime) :
    recon1 ((q, w) :: es) lm rm cs =
      recon1 es (insertA lm q r) rm (cs ++ [⟨.remoteToLocal, q, r.modTime⟩]) := by
  simp [recon1, h, hh, hmt]

theorem recon2_cons_none (es : List (String × FileMetadata)) (lm : Smap) (cs : List CopyOp)
    (q : String) (w : FileMetadata) (h : lookupA lm q = none) :
    recon2 ((q, w) :: es) lm cs =
      recon2 es (insertA lm q w) (cs ++ [⟨.remoteToLocal, q, w.modTime⟩]) := by
  simp [recon2, h]

theorem recon2_cons_some (es : List (String × FileMetadata)) (lm : Smap) (cs : List CopyOp)
    (q : String) (w v : FileMetadata) (h : lookupA lm q = some v) :
    recon2 ((q, w) :: es) lm cs = recon2 es lm cs := by
  simp [recon2, h]

theorem recon1_frame (es : List (String × FileMetadata)) (p : String) :
    ∀ lm rm cs, p ∉ keysA es →
      lookupA (recon1 es lm rm cs).1 p = lookupA lm p ∧
      lookupA (recon1 es lm rm cs).2.1 p = lookupA rm p := by
  induction es with
  | nil => intro lm rm cs _; exact ⟨rfl, rfl⟩
  | cons hd tl ih =>
    obtain ⟨q, w⟩ := hd
    intro lm rm cs hp
    simp only [keysA, List.map_cons, List.mem_cons] at hp
    push_neg at hp
    have hq : q ≠ p := fun h => hp.1 h.symm
    have htl : p ∉ keysA tl := by simpa [keysA] using hp.2
    cases hrm : lookupA rm q with
    | none =>
      rw [recon1_cons_none tl lm rm cs q w hrm]
      obtain ⟨h1, h2⟩ := ih lm (insertA rm q w) _ htl
      exact ⟨h1, by rw [h2, lookupA_insertA_ne _ _ _ _ hq]⟩
    | some r =>
      by_cases hh : w.hash = r.hash
      · rw [recon1_cons_eq tl lm rm cs q w r hrm hh]
        exact ih lm rm cs htl
      · by_cases hmt : r.modTime < w.modTime
        · rw [recon1_cons_newerL tl lm rm cs q w r hrm hh hmt]
          obtain ⟨h1, h2⟩ := ih lm (insertA rm q w) _ htl
          exact ⟨h1, by rw [h2, lookupA_insertA_ne _ _ _ _ hq]⟩
        · rw [recon1_cons_newerR tl lm rm cs q w r hrm hh hmt]
          obtain ⟨h1, h2⟩ := ih (insertA lm q r) rm _ htl
          exact ⟨by rw [h1, lookupA_insertA_ne _ _ _ _ hq], h2⟩

theorem recon1_copies_frame (es : List (String × FileMetadata)) (p : String) :
    ∀ lm rm cs, p ∉ keysA es →
      (recon1 es lm rm cs).2.2.filter (fun c => decide (c.path = p)) =
        cs.filter (fun c => decide (c.path = p)) := by
  induction es with
  | nil => intro lm rm cs _; rfl
  | cons hd tl ih =>
    obtain ⟨q, w⟩ := hd
    intro lm rm cs hp
    simp only [keysA, List.map_cons, List.mem_cons] at hp
    push_neg at hp
    have hq : ¬((q : String) = p) := fun h => hp.1 h.symm
    have htl : p ∉ keysA tl := by simpa [keysA] using hp.2
    cases hrm : lookupA rm q with
    | none =>
      rw [recon1_cons_none tl lm rm cs q w hrm, ih _ _ _ htl]
      simp [List.filter_append, hq]
    | some r =>
      by_cases hh : w.hash = r.hash
      · rw [recon1_cons_eq tl lm rm cs q w r hrm hh, ih _ _ _ htl]
      · by_cases hmt : r.modTime < w.modTime
        · rw [recon1_cons_newerL tl lm rm cs q w r hrm hh hmt, ih _ _ _ htl]
          simp [List.filter_append, hq]
        · rw [recon1_cons_newerR tl lm rm cs q w r hrm hh hmt, ih _ _ _ htl]
          simp [List.filter_append, hq]

theorem recon1_nodup (es : List (String × FileMetadata)) :
    ∀ lm rm cs, NodupKeys lm → NodupKeys rm →
      NodupKeys (recon1 es lm rm cs).1 ∧ NodupKeys (recon1 es lm rm cs).2.1 := by
  induction es with
  | nil => intro lm rm cs h1 h2; exact ⟨h1, h2⟩
  | cons hd tl ih =>
    obtain ⟨q, w⟩ := hd
    intro lm rm cs h1 h2
    cases hrm : lookupA rm q with
    | none =>
      rw [recon1_cons_none tl lm rm cs q w hrm]
      exact ih _ _ _ h1 (nodupKeys_insertA _ _ _ h2)
    | some r =>
      by_cases hh : w.hash = r.hash
      · rw [recon1_cons_eq tl lm rm cs q w r hrm hh]
        exact ih _ _ _ h1 h2
      · by_cases hmt : r.modTime < w.modTime
        · rw [recon1_cons_newerL tl lm rm cs q w r hrm hh hmt]
          exact ih _ _ _ h1 (nodupKeys_insertA _ _ _ h2)
        · rw [recon1_cons_newerR tl lm rm cs q w r hrm hh hmt]
          exact ih _ _ _ (nodupKeys_insertA _ _ _ h1) h2

theorem recon2_frame_keys (es : List (String × FileMetadata)) (p : String) :
    ∀ lm cs, p ∉ keysA es →
      lookupA (recon2 es lm cs).1 p = lookupA lm p ∧
      (recon2 es lm cs).2.filter (fun c => decide (c.path = p)) =
        cs.filter (fun c => decide (c.path = p)) := by
  induction es with
  | nil => intro lm cs _; exact ⟨rfl, rfl⟩
  | cons hd tl ih =>
    obtain ⟨q, w⟩ := hd
    intro lm cs hp
    simp only [keysA, List.map_cons, List.mem_cons] at hp
    push_neg at hp
    have hq : q ≠ p := fun h => hp.1 h.symm
    have hq2 : ¬((q : String) = p) := hq
    have htl : p ∉ keysA tl := by simpa [keysA] using hp.2
    cases hlm : lookupA lm q with
    | none =>
      rw [recon2_cons_none tl lm cs q w hlm]
      obtain ⟨h1, h2⟩ := ih (insertA lm q w) _ htl
      refine ⟨by rw [h1, lookupA_insertA_ne _ _ _ _ hq], ?_⟩
      rw [h2]
      simp [List.filter_append, hq2]
    | some v =>
      rw [recon2_cons_some tl lm cs q w v hlm]
      exact ih lm cs htl

theorem recon2_frame_some (es : List (String × FileMetadata)) (p : String) (v : FileMetadata) :
    ∀ lm cs, lookupA lm p = some v →
      lookupA (recon2 es lm cs).1 p = some v ∧
      (recon2 es lm cs).2.filter (fun c => decide (c.path = p)) =
        cs.filter (fun c => decide (c.path = p)) := by
  induction es with
  | nil => intro lm cs h; exact ⟨h, rfl⟩
  | cons hd tl ih =>
    obtain ⟨q, w⟩ := hd
    intro lm cs h
    by_cases hq : q = p
    · subst hq
      rw [recon2_cons_some tl lm cs q w v h]
      exact ih lm cs h
    · cases hlm : lookupA lm q with
      | none =>
        rw [recon2_cons_none tl lm cs q w hlm]
        obtain ⟨h1, h2⟩ := ih (insertA lm q w) (cs ++ [⟨.remoteToLocal, q, w.modTime⟩])
          (by rw [lookupA_insertA_ne _ _ _ _ hq, h])
        refine ⟨h1, ?_⟩
        rw [h2]
        simp [List.filter_append, hq]
      | some u =>
        rw [recon2_cons_some tl lm cs q w u hlm]
        exact ih lm cs h

theorem recon2_nodup (es : List (String × FileMetadata)) :
    ∀ lm cs, NodupKeys lm → NodupKeys (recon2 es lm cs).1 := by
  induction es with
  | nil => intro lm cs h; exact h
  | cons hd tl ih =>
    obtain ⟨q, w⟩ := hd
    intro lm cs h
    cases hlm : lookupA lm q with
    | none =>
      rw [recon2_cons_none tl lm cs q w hlm]
      exact ih _ _ (nodupKeys_insertA _ _ _ h)
    | some v =>
      rw [recon2_cons_some tl lm cs q w v hlm]
      exact ih lm cs h

theorem recon2_inserts (es : List (String × FileMetadata)) (p : String) (r : FileMetadata) :
    ∀ lm cs, NodupKeys es → (p, r) ∈ es → lookupA lm p = none →
      lookupA (recon2 es lm cs).1 p = some r := by
  induction es with
  | nil => intro lm cs _ h _; simp at h
  | cons hd tl ih =>
    obtain ⟨q, w⟩ := hd
    intro lm cs hnd hmem hnone
    simp only [NodupKeys, keysA, List.map_cons, List.nodup_cons] at hnd
    by_cases hq : q = p
    · subst hq
      have hw : w = r := by
        rcases List.mem_cons.1 hmem with h1 | h1
        · exact (Prod.mk.injEq .. ▸ h1).2.symm
        · exact absurd (List.mem_map_of_mem Prod.fst h1) hnd.1
      subst hw
      rw [recon2_cons_none tl lm cs q w hnone]
      have hfr := recon2_frame_keys tl q (insertA lm q w)
        (cs ++ [⟨.remoteToLocal, q, w.modTime⟩]) hnd.1
      rw [hfr.1, lookupA_insertA_self]
    · have hmem2 : (p, r) ∈ tl := by
        rcases List.mem_cons.1 hmem with h1 | h1
        · exact absurd (Prod.mk.injEq .. ▸ h1).1.symm hq
        · exact h1
      cases hlm : lookupA lm q with
      | none =>
        rw [recon2_cons_none tl lm cs q w hlm]
        exact ih _ _ hnd.2 hmem2 (by rw [lookupA_insertA_ne _ _ _ _ hq, hnone])
      | some v =>
        rw [recon2_cons_some tl lm cs q w v hlm]
        exact ih lm cs hnd.2 hmem2 hnone

theorem recon1_at_key_both (es : List (String × FileMetadata)) (p : String)
    (lmeta rmeta : FileMetadata) :
    ∀ lm rm cs, NodupKeys es → (∀ pr ∈ es, lookupA lm pr.1 = some pr.2) →
      (p, lmeta) ∈ es → lookupA rm p = some rmeta → ¬lmeta.hash = rmeta.hash →
      (rmeta.modTime < lmeta.modTime →
        lookupA (recon1 es lm rm cs).1 p = some lmeta ∧
        lookupA (recon1 es lm rm cs).2.1 p = some lmeta ∧
        (recon1 es lm rm cs).2.2.filter (fun c => decide (c.path = p)) =
          cs.filter (fun c => decide (c.path = p)) ++ [⟨.localToRemote, p, lmeta.modTime⟩]) ∧
      (¬rmeta.modTime < lmeta.modTime →
        lookupA (recon1 es lm rm cs).1 p = some rmeta ∧
        lookupA (recon1 es lm rm cs).2.1 p = some rmeta ∧
        (recon1 es lm rm cs).2.2.filter (fun c => decide (c.path = p)) =
          cs.filter (fun c => decide (c.path = p)) ++ [⟨.remoteToLocal, p, rmeta.modTime⟩]) := by
  induction es with
  | nil => intro lm rm cs _ _ h _ _; simp at h
  | cons hd tl ih =>
    obtain ⟨q, w⟩ := hd
    intro lm rm cs hnd hinv hmem hrm hh
    simp only [NodupKeys, keysA, List.map_cons, List.nodup_cons] at hnd
    by_cases hq : q = p
    · subst hq
      have hw : w = lmeta := by
        rcases List.mem_cons.1 hmem with h1 | h1
        · exact (Prod.mk.injEq .. ▸ h1).2.symm
        · exact absurd (List.mem_map_of_mem Prod.fst h1) hnd.1
      subst hw
      have hlm : lookupA lm q = some w := hinv (q, w) (List.mem_cons_self _ _)
      constructor
      · intro hmt
        rw [recon1_cons_newerL tl lm rm cs q w rmeta hrm hh hmt]
        obtain ⟨h1, h2⟩ := recon1_frame tl q lm (insertA rm q w)
          (cs ++ [⟨.localToRemote, q, w.modTime⟩]) hnd.1
        have h3 := recon1_copies_frame tl q lm (insertA rm q w)
          (cs ++ [⟨.localToRemote, q, w.modTime⟩]) hnd.1
        refine ⟨by rw [h1, hlm], by rw [h2, lookupA_insertA_self], ?_⟩
        rw [h3]
        simp [List.filter_append]
      · intro hmt
        rw [recon1_cons_newerR tl lm rm cs q w rmeta hrm hh hmt]
        obtain ⟨h1, h2⟩ := recon1_frame tl q (insertA lm q rmeta) rm
          (cs ++ [⟨.remoteToLocal, q, rmeta.modTime⟩]) hnd.1
        have h3 := recon1_copies_frame tl q (insertA lm q rmeta) rm
          (cs ++ [⟨.remoteToLocal, q, rmeta.modTime⟩]) hnd.1
        refine ⟨by rw [h1, lookupA_insertA_self], by rw [h2, hrm], ?_⟩
        rw [h3]
        simp [List.filter_append]
    · have hmem2 : (p, lmeta) ∈ tl := by
        rcases List.mem_cons.1 hmem with h1 | h1
        · exact absurd (Prod.mk.injEq .. ▸ h1).1.symm hq
        · exact h1
      have hq2 : ¬((q : String) = p) := hq
      have hinvtl : ∀ lm2 : Smap, (∀ u, u ≠ q → lookupA lm2 u = lookupA lm u) →
          ∀ pr ∈ tl, lookupA lm2 pr.1 = some pr.2 := by
        intro lm2 hsame pr hpr
        have hne : pr.1 ≠ q := by
          intro hE
          exact hnd.1 (hE ▸ List.mem_map_of_mem Prod.fst hpr)
        rw [hsame pr.1 hne]
        exact hinv pr (List.mem_cons_of_mem _ hpr)
      cases hrmq : lookupA rm q with
      | none =>
        rw [recon1_cons_none tl lm rm cs q w hrmq]
        have := ih lm (insertA rm q w) (cs ++ [⟨.localToRemote, q, w.modTime⟩]) hnd.2
          (hinvtl lm (fun _ _ => rfl)) hmem2
          (by rw [lookupA_insertA_ne _ _ _ _ hq, hrm]) hh
        obtain ⟨hA, hB⟩ := this
        constructor
        · intro hmt
          obtain ⟨a1, a2, a3⟩ := hA hmt
          refine ⟨a1, a2, ?_⟩
          rw [a3]
          simp [List.filter_append, hq2]
        · intro hmt
          obtain ⟨a1, a2, a3⟩ := hB hmt
          refine ⟨a1, a2, ?_⟩
          rw [a3]
          simp [List.filter_append, hq2]
      | some r =>
        by_cases hhq : w.hash = r.hash
        · rw [recon1_cons_eq tl lm rm cs q w r hrmq hhq]
          exact ih lm rm cs hnd.2 (hinvtl lm (fun _ _ => rfl)) hmem2 hrm hh
        · by_cases hmtq : r.modTime < w.modTime
          · rw [recon1_cons_newerL tl lm rm cs q w r hrmq hhq hmtq]
            have := ih lm (insertA rm q w) (cs ++ [⟨.localToRemote, q, w.modTime⟩]) hnd.2
              (hinvtl lm (fun _ _ => rfl)) hmem2
              (by rw [lookupA_insertA_ne _ _ _ _ hq, hrm]) hh
            obtain ⟨hA, hB⟩ := this
            constructor
            · intro hmt
              obtain ⟨a1, a2, a3⟩ := hA hmt
              refine ⟨a1, a2, ?_⟩
              rw [a3]
              simp [List.filter_append, hq2]
            · intro hmt
              obtain ⟨a1, a2, a3⟩ := hB hmt
              refine ⟨a1, a2, ?_⟩
              rw [a3]
              simp [List.filter_append, hq2]
          · rw [recon1_cons_newerR tl lm rm cs q w r hrmq hhq hmtq]
            have := ih (insertA lm q r) rm (cs ++ [⟨.remoteToLocal, q, r.modTime⟩]) hnd.2
              (hinvtl (insertA lm q r)
                (fun u hu => lookupA_insertA_ne _ _ _ _ (fun hE => hu hE.symm))) hmem2 hrm hh
            obtain ⟨hA, hB⟩ := this
            constructor
            · intro hmt
              obtain ⟨a1, a2, a3⟩ := hA hmt
              refine ⟨a1, a2, ?_⟩
              rw [a3]
              simp [List.filter_append, hq2]
            · intro hmt
              obtain ⟨a1, a2, a3⟩ := hB hmt
              refine ⟨a1, a2, ?_⟩
              rw [a3]
              simp [List.filter_append, hq2]

/-- C2 as amended: in reconciliation, for a path present in both maps
with differing hashes, the side with the strictly later modTime is copied
over the other (exactly one copy for that path) and the loser's map entry
is set to the winner's metadata; when the modTimes are exactly equal the
REMOTE side wins (the `After` comparison is false on ties): the remote
file is copied to local and the local map entry is set to the remote
metadata. -/
theorem reconcile_both_present (lm rm : Smap) (p : String) (lmeta rmeta : FileMetadata)
    (hnl : NodupKeys lm) (hnr : NodupKeys rm)
    (hl : lookupA lm p = some lmeta) (hr : lookupA rm p = some rmeta)
    (hh : ¬lmeta.hash = rmeta.hash) :
    (rmeta.modTime < lmeta.modTime →
      lookupA (reconcile lm rm).1 p = some lmeta ∧
      lookupA (reconcile lm rm).2.1 p = some lmeta ∧
      (reconcile lm rm).2.2.filter (fun c => decide (c.path = p)) =
        [⟨.localToRemote, p, lmeta.modTime⟩]) ∧
    (¬rmeta.modTime < lmeta.modTime →
      lookupA (reconcile lm rm).1 p = some rmeta ∧
      lookupA (reconcile lm rm).2.1 p = some rmeta ∧
      (reconcile lm rm).2.2.filter (fun c => decide (c.path = p)) =
        [⟨.remoteToLocal, p, rmeta.modTime⟩]) := by
  have hinv : ∀ pr ∈ lm, lookupA lm pr.1 = some pr.2 := by
    intro pr hpr
    exact lookupA_of_mem_nodup lm pr.1 pr.2 hnl hpr
  have hmemL : (p, lmeta) ∈ lm := lookupA_mem _ _ _ hl
  obtain ⟨hA, hB⟩ := recon1_at_key_both lm p lmeta rmeta lm rm [] hnl hinv hmemL hr hh
  constructor
  · intro hmt
    obtain ⟨a1, a2, a3⟩ := hA hmt
    obtain ⟨b1, b2⟩ := recon2_frame_some (recon1 lm lm rm []).2.1 p lmeta
      (recon1 lm lm rm []).1 (recon1 lm lm rm []).2.2 a1
    exact ⟨b1, a2, b2.trans a3⟩
  · intro hmt
    obtain ⟨a1, a2, a3⟩ := hB hmt
    obtain ⟨b1, b2⟩ := recon2_frame_some (recon1 lm lm rm []).2.1 p rmeta
      (recon1 lm lm rm []).1 (recon1 lm lm rm []).2.2 a1
    exact ⟨b1, a2, b2.trans a3⟩

theorem reconcile_both_present_witness :
    lookupA (reconcile [("a", ⟨"a", "h1", 9⟩)] [("a", ⟨"a", "h2", 5⟩)]).1 "a" =
        some ⟨"a", "h1", 9⟩ ∧
      lookupA (reconcile [("a", ⟨"a", "h1", 9⟩)] [("a", ⟨"a", "h2", 5⟩)]).2.1 "a" =
        some ⟨"a", "h1", 9⟩ ∧
      (reconcile [("a", ⟨"a", "h1", 9⟩)] [("a", ⟨"a", "h2", 5⟩)]).2.2.filter
          (fun c => decide (c.path = "a")) = [⟨.localToRemote, "a", 9⟩] :=
  (reconcile_both_present [("a", ⟨"a", "h1", 9⟩)] [("a", ⟨"a", "h2", 5⟩)] "a"
    ⟨"a", "h1", 9⟩ ⟨"a", "h2", 5⟩ (by decide) (by decide) rfl rfl (by decide)).1 (by decide)

/-- C2 counterexample: with equal modTimes and differing hashes on both
sides, the claim's tie clause (local wins: copy local to remote, set the
remote entry to the local metadata) is false — the code performs a
remote-to-local copy and overwrites the LOCAL map entry with the remote
metadata. -/
theorem reconcile_tie_counterexample :
    ¬(lookupA (reconcile [("a", ⟨"a", "h1", 5⟩)] [("a", ⟨"a", "h2", 5⟩)]).2.1 "a" =
          some ⟨"a", "h1", 5⟩ ∧
        (reconcile [("a", ⟨"a", "h1", 5⟩)] [("a", ⟨"a", "h2", 5⟩)]).2.2 =
          [⟨.localToRemote, "a", 5⟩]) ∧
      (reconcile [("a", ⟨"a", "h1", 5⟩)] [("a", ⟨"a", "h2", 5⟩)]).2.2 =
        [⟨.remoteToLocal, "a", 5⟩] ∧
      lookupA (reconcile [("a", ⟨"a", "h1", 5⟩)] [("a", ⟨"a", "h2", 5⟩)]).1 "a" =
        some ⟨"a", "h2", 5⟩ := by
  decide

theorem recon1_agree (es : List (String × FileMetadata)) :
    ∀ lm rm cs, NodupKeys es → (∀ pr ∈ es, lookupA lm pr.1 = some pr.2) →
      ∀ p ∈ keysA es,
        ∃ x y, lookupA (recon1 es lm rm cs).1 p = some x ∧
          lookupA (recon1 es lm rm cs).2.1 p = some y ∧ x.hash = y.hash := by
  induction es with
  | nil => intro lm rm cs _ _ p hp; simp [keysA] at hp
  | cons hd tl ih =>
    obtain ⟨q, w⟩ := hd
    intro lm rm cs hnd hinv p hp
    simp only [NodupKeys, keysA, List.map_cons, List.nodup_cons] at hnd
    simp only [keysA, List.map_cons, List.mem_cons] at hp
    have hlm : lookupA lm q = some w := hinv (q, w) (List.mem_cons_self _ _)
    have hinvtl : ∀ lm2 : Smap, (∀ u, u ≠ q → lookupA lm2 u = lookupA lm u) →
        ∀ pr ∈ tl, lookupA lm2 pr.1 = some pr.2 := by
      intro lm2 hsame pr hpr
      have hne : pr.1 ≠ q := by
        intro hE
        exact hnd.1 (hE ▸ List.mem_map_of_mem Prod.fst hpr)
      rw [hsame pr.1 hne]
      exact hinv pr (List.mem_cons_of_mem _ hpr)
    rcases hp with hp | hp
    · subst hp
      cases hrm : lookupA rm p with
      | none =>
        rw [recon1_cons_none tl lm rm cs p w hrm]
        obtain ⟨h1, h2⟩ := recon1_frame tl p lm (insertA rm p w)
          (cs ++ [⟨.localToRemote, p, w.modTime⟩]) hnd.1
        exact ⟨w, w, by rw [h1, hlm], by rw [h2, lookupA_insertA_self], rfl⟩
      | some r =>
        by_cases hh : w.hash = r.hash
        · rw [recon1_cons_eq tl lm rm cs p w r hrm hh]
          obtain ⟨h1, h2⟩ := recon1_frame tl p lm rm cs hnd.1
          exact ⟨w, r, by rw [h1, hlm], by rw [h2, hrm], hh⟩
        · by_cases hmt : r.modTime < w.modTime
          · rw [recon1_cons_newerL tl lm rm cs p w r hrm hh hmt]
            obtain ⟨h1, h2⟩ := recon1_frame tl p lm (insertA rm p w)
              (cs ++ [⟨.localToRemote, p, w.modTime⟩]) hnd.1
            exact ⟨w, w, by rw [h1, hlm], by rw [h2, lookupA_insertA_self], rfl⟩
          · rw [recon1_cons_newerR tl lm rm cs p w r hrm hh hmt]
            obtain ⟨h1, h2⟩ := recon1_frame tl p (insertA lm p r) rm
              (cs ++ [⟨.remoteToLocal, p, r.modTime⟩]) hnd.1
            exact ⟨r, r, by rw [h1, lookupA_insertA_self], by rw [h2, hrm], rfl⟩
    · have hp2 : p ∈ keysA tl := by simpa [keysA] using hp
      cases hrmq : lookupA rm q with
      | none =>
        rw [recon1_cons_none tl lm rm cs q w hrmq]
        exact ih lm (insertA rm q w) _ hnd.2 (hinvtl lm (fun _ _ => rfl)) p hp2
      | some r =>
        by_cases hh : w.hash = r.hash
        · rw [recon1_cons_eq tl lm rm cs q w r hrmq hh]
          exact ih lm rm cs hnd.2 (hinvtl lm (fun _ _ => rfl)) p hp2
        · by_cases hmt : r.modTime < w.modTime
          · rw [recon1_cons_newerL tl lm rm cs q w r hrmq hh hmt]
            exact ih lm (insertA rm q w) _ hnd.2 (hinvtl lm (fun _ _ => rfl)) p hp2
          · rw [recon1_cons_newerR tl lm rm cs q w r hrmq hh hmt]
            exact ih (insertA lm q r) rm _ hnd.2
              (hinvtl (insertA lm q r)
                (fun u hu => lookupA_insertA_ne _ _ _ _ (fun hE => hu hE.symm))) p hp2

theorem reconcile_agree (lm rm : Smap) (hnl : NodupKeys lm) (hnr : NodupKeys rm) (p : String) :
    ∃ o1 o2, lookupA (reconcile lm rm).1 p = o1 ∧ lookupA (reconcile lm rm).2.1 p = o2 ∧
      Option.map FileMetadata.hash o1 = Option.map FileMetadata.hash o2 := by
  have hinv : ∀ pr ∈ lm, lookupA lm pr.1 = some pr.2 := by
    intro pr hpr
    exact lookupA_of_mem_nodup lm pr.1 pr.2 hnl hpr
  cases hlp : lookupA lm p with
  | some w =>
    have hpk : p ∈ keysA lm := by
      have := lookupA_mem lm p w hlp
      exact List.mem_map_of_mem Prod.fst this
    obtain ⟨x, y, h1, h2, hxy⟩ := recon1_agree lm lm rm [] hnl hinv p hpk
    obtain ⟨b1, _⟩ := recon2_frame_some (recon1 lm lm rm []).2.1 p x
      (recon1 lm lm rm []).1 (recon1 lm lm rm []).2.2 h1
    exact ⟨some x, some y, b1, h2, by simp [hxy]⟩
  | none =>
    have hpk : p ∉ keysA lm := (lookupA_eq_none_iff lm p).1 hlp
    obtain ⟨f1, f2⟩ := recon1_frame lm p lm rm [] hpk
    have hrm1nd : NodupKeys (recon1 lm lm rm []).2.1 := (recon1_nodup lm lm rm [] hnl hnr).2
    cases hrp : lookupA rm p with
    | some r =>
      have hlook1 : lookupA (recon1 lm lm rm []).2.1 p = some r := by rw [f2, hrp]
      have hmem1 : (p, r) ∈ (recon1 lm lm rm []).2.1 := lookupA_mem _ _ _ hlook1
      have hfin : lookupA (reconcile lm rm).1 p = some r :=
        recon2_inserts (recon1 lm lm rm []).2.1 p r (recon1 lm lm rm []).1
          (recon1 lm lm rm []).2.2 hrm1nd hmem1 (by rw [f1, hlp])
      exact ⟨some r, some r, hfin, hlook1, rfl⟩
    | none =>
      have hlook1 : lookupA (recon1 lm lm rm []).2.1 p = none := by rw [f2, hrp]
      have hpk2 : p ∉ keysA (recon1 lm lm rm []).2.1 :=
        (lookupA_eq_none_iff _ p).1 hlook1
      obtain ⟨g1, _⟩ := recon2_frame_keys (recon1 lm lm rm []).2.1 p
        (recon1 lm lm rm []).1 (recon1 lm lm rm []).2.2 hpk2
      refine ⟨none, none, ?_, hlook1, rfl⟩
      show lookupA (recon2 (recon1 lm lm rm []).2.1 (recon1 lm lm rm []).1
        (recon1 lm lm rm []).2.2).1 p = none
      rw [g1, f1, hlp]

theorem recon1_id_of_agree (es : List (String × FileMetadata)) :
    ∀ lm rm cs, (∀ pr ∈ es, lookupA lm pr.1 = some pr.2) →
      (∀ pr ∈ es, ∃ y, lookupA rm pr.1 = some y ∧ (pr.2 : FileMetadata).hash = y.hash) →
      recon1 es lm rm cs = (lm, rm, cs) := by
  induction es with
  | nil => intro lm rm cs _ _; rfl
  | cons hd tl ih =>
    obtain ⟨q, w⟩ := hd
    intro lm rm cs hinv hag
    obtain ⟨y, hy, hhash⟩ := hag (q, w) (List.mem_cons_self _ _)
    rw [recon1_cons_eq tl lm rm cs q w y hy hhash]
    exact ih lm rm cs (fun pr hpr => hinv pr (List.mem_cons_of_mem _ hpr))
      (fun pr hpr => hag pr (List.mem_cons_of_mem _ hpr))

theorem recon2_id_of_some (es : List (String × FileMetadata)) :
    ∀ lm cs, (∀ pr ∈ es, ∃ v, lookupA lm pr.1 = some v) → recon2 es lm cs = (lm, cs) := by
  induction es with
  | nil => intro lm cs _; rfl
  | cons hd tl ih =>
    obtain ⟨q, w⟩ := hd
    intro lm cs hag
    obtain ⟨v, hv⟩ := hag (q, w) (List.mem_cons_self _ _)
    rw [recon2_cons_some tl lm cs q w v hv]
    exact ih lm cs (fun pr hpr => hag pr (List.mem_cons_of_mem _ hpr))

/-- C3: reconciliation is idempotent — after a successful reconcile pass
with no intervening change, running reconcile again on the resulting pair
of state maps performs zero copies and returns both maps unchanged. -/
theorem reconcile_idempotent (lm rm : Smap) (hnl : NodupKeys lm) (hnr : NodupKeys rm) :
    reconcile (reconcile lm rm).1 (reconcile lm rm).2.1 =
      ((reconcile lm rm).1, (reconcile lm rm).2.1, ([] : List CopyOp)) := by
  have hndL : NodupKeys (reconcile lm rm).1 :=
    recon2_nodup (recon1 lm lm rm []).2.1 (recon1 lm lm rm []).1 (recon1 lm lm rm []).2.2
      (recon1_nodup lm lm rm [] hnl hnr).1
  have hndR : NodupKeys (reconcile lm rm).2.1 := (recon1_nodup lm lm rm [] hnl hnr).2
  have hag := reconcile_agree lm rm hnl hnr
  have h1 : recon1 (reconcile lm rm).1 (reconcile lm rm).1 (reconcile lm rm).2.1 [] =
      ((reconcile lm rm).1, (reconcile lm rm).2.1, []) := by
    apply recon1_id_of_agree
    · intro pr hpr
      exact lookupA_of_mem_nodup _ pr.1 pr.2 hndL hpr
    · intro pr hpr
      have hlook : lookupA (reconcile lm rm).1 pr.1 = some pr.2 :=
        lookupA_of_mem_nodup _ pr.1 pr.2 hndL hpr
      obtain ⟨o1, o2, e1, e2, ehash⟩ := hag pr.1
      rw [hlook] at e1
      subst e1
      cases o2 with
      | none => simp at ehash
      | some y =>
        refine ⟨y, e2, ?_⟩
        simpa using ehash
  have h2 : recon2 (reconcile lm rm).2.1 (reconcile lm rm).1 ([] : List CopyOp) =
      ((reconcile lm rm).1, []) := by
    apply recon2_id_of_some
    intro pr hpr
    have hlook : lookupA (reconcile lm rm).2.1 pr.1 = some pr.2 :=
      lookupA_of_mem_nodup _ pr.1 pr.2 hndR hpr
    obtain ⟨o1, o2, e1, e2, ehash⟩ := hag pr.1
    rw [hlook] at e2
    subst e2
    cases o1 with
    | none => simp at ehash
    | some x => exact ⟨x, e1⟩
  show (let r1 := recon1 (reconcile lm rm).1 (reconcile lm rm).1 (reconcile lm rm).2.1 []
        let r2 := recon2 r1.2.1 r1.1 r1.2.2
        (r2.1, r1.2.1, r2.2)) =
      ((reconcile lm rm).1, (reconcile lm rm).2.1, ([] : List CopyOp))
  rw [h1]
  simp only []
  rw [h2]

theorem reconcile_idempotent_witness :
    reconcile (reconcile [("a", ⟨"a", "h1", 1⟩), ("c", ⟨"c", "h3", 3⟩)]
        [("b", ⟨"b", "h2", 2⟩), ("c", ⟨"c", "h4", 7⟩)]).1
      (reconcile [("a", ⟨"a", "h1", 1⟩), ("c", ⟨"c", "h3", 3⟩)]
        [("b", ⟨"b", "h2", 2⟩), ("c", ⟨"c", "h4", 7⟩)]).2.1 =
      ((reconcile [("a", ⟨"a", "h1", 1⟩), ("c", ⟨"c", "h3", 3⟩)]
          [("b", ⟨"b", "h2", 2⟩), ("c", ⟨"c", "h4", 7⟩)]).1,
        (reconcile [("a", ⟨"a", "h1", 1⟩), ("c", ⟨"c", "h3", 3⟩)]
          [("b", ⟨"b", "h2", 2⟩), ("c", ⟨"c", "h4", 7⟩)]).2.1, ([] : List CopyOp)) :=
  reconcile_idempotent [("a", ⟨"a", "h1", 1⟩), ("c", ⟨"c", "h3", 3⟩)]
    [("b", ⟨"b", "h2", 2⟩), ("c", ⟨"c", "h4", 7⟩)] (by decide) (by decide)

/-- A filesystem subtree for the scan model: regular files carry the hash
and modTime that `metadataForAbsolute` would compute; `errEntry` is an
entry whose visit makes `filepath.WalkDir` report a traversal error. -/
inductive FsTree where
  | file (name hash : String) (modTime : Int)
  | dir (name : String) (children : List FsTree)
  | errEntry (name : String)
deriving Repr

/-- The hidden-entry test from `BuildStateMap`:
`len(base) > 0 && base[0] == '.'`, on the name's character list. -/
def isHidden (name : String) : Bool :=
  match name.data with
  | [] => false
  | c :: _ => decide (c = '.')

/-- One scan-result row.  The Go code keys the map by the slash-joined
relative path; the model keeps the path as its list of segments. -/
structure ScanMeta where
  path : List String
  hash : String
  modTime : Int
deriving DecidableEq, Repr

/-- The `filepath.WalkDir` body of `BuildStateMap` over the sibling
entries below relative directory `pre`: a traversal error aborts the
whole walk; directories are recursed into unconditionally (the
`d.IsDir()` early return precedes the hidden-name check, so hidden
directories are still descended into); files whose base name starts with
a dot are skipped; every other file yields an entry. -/
def walkF (pre : List String) : List FsTree → Except String (List (List String × ScanMeta))
  | [] => .ok []
  | .errEntry n :: _ => .error ("error walking directory: " ++ n)
  | .file n h mt :: ts =>
    match walkF pre ts with
    | .error e => .error e
    | .ok rest =>
      if isHidden n then .ok rest
      else .ok ((pre ++ [n], ⟨pre ++ [n], h, mt⟩) :: rest)
  | .dir n cs :: ts =>
    match walkF (pre ++ [n]) cs with
    | .error e => .error e
    | .ok m1 =>
      match walkF pre ts with
      | .error e => .error e
      | .ok m2 => .ok (m1 ++ m2)

/-- `BuildStateMap` from `filesystem_provider.go`, applied to the entries
below the provider's root (WalkDir's visit of the root itself is a no-op
since the root is a directory). -/
def BuildStateMap (rootChildren : List FsTree) :
    Except String (List (List String × ScanMeta)) :=
  walkF [] rootChildren

/-- Modelled from the spec's words ("recurse transparently into all
subdirectories, skip hidden entries"): all files at any depth, recursing
into every subdirectory, except files whose name has a leading dot. -/
def visibleFiles (pre : List String) : List FsTree → List (List String × ScanMeta)
  | [] => []
  | .errEntry _ :: ts => visibleFiles pre ts
  | .file n h mt :: ts =>
    if isHidden n then visibleFiles pre ts
    else (pre ++ [n], ⟨pre ++ [n], h, mt⟩) :: visibleFiles pre ts
  | .dir n cs :: ts => visibleFiles (pre ++ [n]) cs ++ visibleFiles pre ts

/-- Whether any entry anywhere in the forest reports a traversal error. -/
def hasErr : List FsTree → Bool
  | [] => false
  | .errEntry _ :: _ => true
  | .file _ _ _ :: ts => hasErr ts
  | .dir _ cs :: ts => hasErr cs || hasErr ts

theorem walkF_err (pre : List String) (ts : List FsTree) (h : hasErr ts = true) :
    ∃ e, walkF pre ts = .error e := by
  induction pre, ts using walkF.induct with
  | case1 pre => simp [hasErr] at h
  | case2 pre n tail => exact ⟨"error walking directory: " ++ n, by simp [walkF]⟩
  | case3 pre n hs mt ts e he ih => exact ⟨e, by simp [walkF, he]⟩
  | case4 pre n hs mt ts rest hrest hhid ih =>
    simp only [hasErr] at h
    obtain ⟨e, he⟩ := ih h
    have := he.symm.trans hrest
    simp at this
  | case5 pre n hs mt ts rest hrest hhid ih =>
    simp only [hasErr] at h
    obtain ⟨e, he⟩ := ih h
    have := he.symm.trans hrest
    simp at this
  | case6 pre n cs ts e he ih => exact ⟨e, by simp [walkF, he]⟩
  | case7 pre n cs ts rest hcs e hts ihc iht => exact ⟨e, by simp [walkF, hcs, hts]⟩
  | case8 pre n cs ts rest1 hcs rest2 hts ihc iht =>
    simp only [hasErr, Bool.or_eq_true] at h
    rcases h with h | h
    · obtain ⟨e, he⟩ := ihc h
      have := he.symm.trans hcs
      simp at this
    · obtain ⟨e, he⟩ := iht h
      have := he.symm.trans hts
      simp at this

theorem walkF_ok (pre : List String) (ts : List FsTree) (h : hasErr ts = false) :
    walkF pre ts = .ok (visibleFiles pre ts) := by
  induction pre, ts using walkF.induct with
  | case1 pre => simp [walkF, visibleFiles]
  | case2 pre n tail => simp [hasErr] at h
  | case3 pre n hs mt ts e he ih =>
    simp only [hasErr] at h
    have := (ih h).symm.trans he
    simp at this
  | case4 pre n hs mt ts rest hrest hhid ih =>
    simp only [hasErr] at h
    simp [walkF, visibleFiles, ih h, hhid]
  | case5 pre n hs mt ts rest hrest hhid ih =>
    simp only [hasErr] at h
    simp [walkF, visibleFiles, ih h, hhid]
  | case6 pre n cs ts e he ih =>
    simp only [hasErr, Bool.or_eq_false_iff] at h
    have := (ih h.1).symm.trans he
    simp at this
  | case7 pre n cs ts rest hcs e hts ihc iht =>
    simp only [hasErr, Bool.or_eq_false_iff] at h
    have := (iht h.2).symm.trans hts
    simp at this
  | case8 pre n cs ts rest1 hcs rest2 hts ihc iht =>
    simp only [hasErr, Bool.or_eq_false_iff] at h
    simp [walkF, visibleFiles, ihc h.1, iht h.2]

theorem visibleFiles_not_hidden (pre : List String) (ts : List FsTree) :
    ∀ pr ∈ visibleFiles pre ts, ∃ n, (pr.1 : List String).getLast? = some n ∧
      isHidden n = false := by
  induction pre, ts using visibleFiles.induct with
  | case1 pre => intro pr hpr; simp [visibleFiles] at hpr
  | case2 pre n ts ih =>
    intro pr hpr
    exact ih pr (by simpa [visibleFiles] using hpr)
  | case3 pre n hs mt ts hhid ih =>
    intro pr hpr
    exact ih pr (by simpa [visibleFiles, hhid] using hpr)
  | case4 pre n hs mt ts hhid ih =>
    intro pr hpr
    have hpr2 : pr = (pre ++ [n], ⟨pre ++ [n], hs, mt⟩) ∨ pr ∈ visibleFiles pre ts := by
      simpa [visibleFiles, hhid] using hpr
    rcases hpr2 with h1 | h1
    · subst h1
      refine ⟨n, ?_, by simpa using hhid⟩
      simp
    · exact ih pr h1
  | case5 pre n cs ts ihc iht =>
    intro pr hpr
    have hpr2 : pr ∈ visibleFiles (pre ++ [n]) cs ∨ pr ∈ visibleFiles pre ts := by
      simpa [visibleFiles] using hpr
    rcases hpr2 with h1 | h1
    · exact ihc pr h1
    · exact iht pr h1

/-- C7: the full scan recurses transparently into all subdirectories,
returns an error on traversal failure, and on success its result is
exactly the set of non-hidden files at every depth — in particular it
contains no entry whose base name has a leading dot. -/
theorem build_state_map_spec (ts : List FsTree) :
    (hasErr ts = true → ∃ e, BuildStateMap ts = Except.error e) ∧
    (hasErr ts = false →
      BuildStateMap ts = Except.ok (visibleFiles [] ts) ∧
      ∀ pr ∈ visibleFiles [] ts, ∃ n, (pr.1 : List String).getLast? = some n ∧
        isHidden n = false) := by
  refine ⟨fun h => walkF_err [] ts h, fun h => ⟨walkF_ok [] ts h, ?_⟩⟩
  exact visibleFiles_not_hidden [] ts

theorem build_state_map_spec_witness :
    BuildStateMap [FsTree.dir ".git" [FsTree.file "cfg" "h0" 1],
        FsTree.dir "d" [FsTree.file ".hid" "h1" 2, FsTree.file "v" "h2" 3],
        FsTree.file "top" "h3" 4] =
      Except.ok [([".git", "cfg"], ⟨[".git", "cfg"], "h0", 1⟩),
        (["d", "v"], ⟨["d", "v"], "h2", 3⟩), (["top"], ⟨["top"], "h3", 4⟩)] ∧
    ∀ pr ∈ visibleFiles ([] : List String)
        [FsTree.dir ".git" [FsTree.file "cfg" "h0" 1],
          FsTree.dir "d" [FsTree.file ".hid" "h1" 2, FsTree.file "v" "h2" 3],
          FsTree.file "top" "h3" 4],
      ∃ n, (pr.1 : List String).getLast? = some n ∧ isHidden n = false := by
  have h := (build_state_map_spec
    [FsTree.dir ".git" [FsTree.file "cfg" "h0" 1],
      FsTree.dir "d" [FsTree.file ".hid" "h1" 2, FsTree.file "v" "h2" 3],
      FsTree.file "top" "h3" 4]).2 (by simp [hasErr])
  refine ⟨h.1.trans ?_, h.2⟩
  have e1 : isHidden ".hid" = true := by decide
  have e2 : isHidden "cfg" = false := by decide
  have e3 : isHidden "v" = false := by decide
  have e4 : isHidden "top" = false := by decide
  simp [visibleFiles, e1, e2, e3, e4]
